import Mathlib

/-!
Shallow embedding of the python-redis-cache library (src/redis_cache/__init__.py)
and proofs about its caching protocol.

Modelling conventions:
* Python dynamic values are modelled by the inductive type PyVal (enough
  constructors to build the argument payload [args, kwargs] that get_key
  serializes).
* The Redis server is modelled by Store: an association list of string keys to
  string values (with the optional TTL recorded but time-based expiry not
  simulated), an association list of sorted-set names to member/score lists,
  and a server time used as the ZADD score.  The Lua script reads the server
  time via TIME; here the score is Store.time, an abstract monotone Nat.
* Sorted sets are association lists of (member, score); Redis orders members
  by score with ties broken by member lexicographic order, which zleb mirrors.
* Network connectivity is passed explicitly: a GET that would raise
  redis.exceptions.ConnectionError is modelled by calling fetch with
  getConn = false, a failing script call by writeConn = false, and failing
  batch/invalidate round trips by conn = false.  Exceptions that the python
  code does not catch are modelled by Except.error.
* Each operation also returns the trace of store commands it issued, so that
  claims about which commands run (multi-get counts, pipeline executions,
  tracking-set reads) can be stated.
-/

namespace RedisCacheModel

/-- A Python value, as far as the cache layer inspects one. -/
inductive PyVal where
  | pnone : PyVal
  | pbool : Bool → PyVal
  | pint : Int → PyVal
  | pstr : String → PyVal
  | plist : List PyVal → PyVal
  | pdict : List (String × PyVal) → PyVal
deriving Repr

/-! ### Association lists (the Redis keyspace) -/

def alGet {α : Type} : List (String × α) → String → Option α
  | [], _ => none
  | p :: rest, k => if p.1 = k then some p.2 else alGet rest k

def alRemove {α : Type} : List (String × α) → String → List (String × α)
  | [], _ => []
  | p :: rest, k => if p.1 = k then alRemove rest k else p :: alRemove rest k

def alSet {α : Type} (l : List (String × α)) (k : String) (v : α) :
    List (String × α) :=
  (k, v) :: alRemove l k

theorem alGet_alRemove {α : Type} (l : List (String × α)) (k k2 : String) :
    alGet (alRemove l k) k2 = if k2 = k then none else alGet l k2 := by
  induction l with
  | nil => simp [alRemove, alGet]
  | cons p rest ih =>
    by_cases h2 : k2 = k
    · subst h2
      by_cases h1 : p.1 = k2 <;> simp [alRemove, alGet, h1, ih]
    · by_cases h1 : p.1 = k
      · have h3 : ¬ p.1 = k2 := fun hh => h2 (h1.symm.trans hh).symm
        have h4 : ¬ k = k2 := fun hh => h2 hh.symm
        simp [alRemove, alGet, h1, h2, h3, h4, ih]
      · simp [alRemove, alGet, h1, h2, ih]

theorem alGet_alSet {α : Type} (l : List (String × α)) (k k2 : String) (v : α) :
    alGet (alSet l k v) k2 = if k2 = k then some v else alGet l k2 := by
  by_cases h : k2 = k
  · simp [alSet, alGet, h]
  · have h2 : ¬ k = k2 := fun hh => h hh.symm
    simp [alSet, alGet, h, h2, alGet_alRemove]

/-! ### Sorted sets -/

/-- One member of a Redis sorted set: the member string and its score. -/
abbrev ZEntry := String × Nat

/-- Redis sorted-set ordering: by score, ties broken by member (lexicographic). -/
def zleb (a b : ZEntry) : Bool :=
  if a.2 < b.2 then true
  else if b.2 < a.2 then false
  else a.1 ≤ b.1

/-- ZADD: insert member with score, overwriting any previous score. -/
def zadd (z : List ZEntry) (score : Nat) (member : String) : List ZEntry :=
  (member, score) :: z.filter (fun p => p.1 != member)

/-- ZCOUNT key -inf +inf: the cardinality of the sorted set. -/
def zcount (z : List ZEntry) : Nat := z.length

def zinsert (p : ZEntry) : List ZEntry → List ZEntry
  | [] => [p]
  | q :: rest => if zleb p q then p :: q :: rest else q :: zinsert p rest

/-- The score-then-member order Redis maintains internally. -/
def zsort : List ZEntry → List ZEntry
  | [] => []
  | p :: rest => zinsert p (zsort rest)

/-- ZPOPMIN key n: the n removed lowest entries, and what remains. -/
def zpopmin (z : List ZEntry) (n : Nat) : List ZEntry × List ZEntry :=
  ((zsort z).take n, (zsort z).drop n)

/-- ZREM: remove the given members. -/
def zrem (z : List ZEntry) (members : List String) : List ZEntry :=
  z.filter (fun p => !(members.contains p.1))

/-! ### The store -/

/-- A stored string value together with the TTL it was written with
(none when written by plain SET; expiry itself is not simulated). -/
structure SVal where
  val : String
  expiry : Option Nat
deriving Repr, DecidableEq

structure Store where
  strs : List (String × SVal)
  zsets : List (String × List ZEntry)
  time : Nat
deriving Repr, DecidableEq

def Store.getStr (s : Store) (k : String) : Option String :=
  (alGet s.strs k).map SVal.val

def Store.setStr (s : Store) (k v : String) (ttl : Option Nat) : Store :=
  { s with strs := alSet s.strs k ⟨v, ttl⟩ }

def Store.delStr (s : Store) (k : String) : Store :=
  { s with strs := alRemove s.strs k }

def Store.getZ (s : Store) (k : String) : List ZEntry :=
  (alGet s.zsets k).getD []

def Store.setZ (s : Store) (k : String) (z : List ZEntry) : Store :=
  { s with zsets := alSet s.zsets k z }

def Store.delZ (s : Store) (k : String) : Store :=
  { s with zsets := alRemove s.zsets k }

/-! ### The Lua cache script (get_cache_lua_fn) -/

/--
The atomic server-side script registered by get_cache_lua_fn, transcribed from
the Lua source: SETEX/SET the primary key, and when limit is positive ZADD the
primary key into the tracking set with the server time as score, then evict the
members with the lowest scores while the cardinality exceeds limit, ZREM-ing
them (redundantly, after ZPOPMIN already removed them) and DEL-ing the evicted
primary keys.  DEL here only touches the string keyspace; the tracked members
are primary (string) keys.
-/
def cacheScript (s : Store) (pk tk value : String) (ttl limit : Nat) : Store :=
  let s1 := if ttl > 0 then s.setStr pk value (some ttl) else s.setStr pk value none
  if limit > 0 then
    let z1 := zadd (s1.getZ tk) s1.time pk
    let count := zcount z1
    let over := count - limit
    if over > 0 then
      let popped := (zpopmin z1 over).1
      let remaining := (zpopmin z1 over).2
      let staleKeys := popped.map Prod.fst
      let z2 := zrem remaining staleKeys
      let s2 := s1.setZ tk z2
      staleKeys.foldl (fun st k => st.delStr k) s2
    else
      s1.setZ tk z1
  else
    s1

/-! ### The cache layer -/

/-- The store command trace an operation issues (used to state claims about
which commands run, such as multi-get counts and tracking-set accesses). -/
inductive Op where
  | opGet : String → Op
  | opMGet : List String → Op
  | opScript : String → String → String → Nat → Nat → Op
  | opPipeExec : Nat → Op
  | opDelete : List String → Op
  | opZRem : String → String → Op
  | opZRange : String → Op
deriving Repr, DecidableEq

/-- redis.exceptions.ConnectionError (and the other uncaught client errors). -/
structure ConnErr where
deriving Repr, DecidableEq

/--
The per-wrapped-callable state of CacheDecorator: serializer/deserializer,
ttl, limit, prefix and namespace (renamed keyPrefix and nspace since both are
Lean keywords or reserved), the ismethod flag and the sticky offline flag.
The serializer here always yields text; the base64 branch of get_key for
bytes-producing serializers is therefore never taken and is not modelled.
-/
structure Entry where
  serializer : PyVal → String
  deserializer : String → PyVal
  ttl : Nat
  limit : Nat
  keyPrefix : String
  nspace : String
  ismethod : Bool
  offline : Bool

/-- CacheDecorator.get_key: serialize the payload [args, kwargs] with the
decorator serializer and build the key prefix:namespace:serialized. -/
def Entry.get_key (e : Entry) (args : List PyVal)
    (kwargs : List (String × PyVal)) : String :=
  let serialized := e.serializer (.plist [.plist args, .pdict kwargs])
  e.keyPrefix ++ ":" ++ e.nspace ++ ":" ++ serialized

/-- The tracking-set key prefix:namespace:keys set up in CacheDecorator call. -/
def Entry.keys_key (e : Entry) : String :=
  e.keyPrefix ++ ":" ++ e.nspace ++ ":keys"

/-- Python truthiness test (not result) applied to a GET reply: true for a
missing key and for a present but empty value. -/
def falsy : Option String → Bool
  | none => true
  | some s => s == ""

/-- The key the wrapped call (inner) derives: with ismethod the first
positional argument is dropped (args[1:]), otherwise the full args are used. -/
def fetchKey (e : Entry) (args : List PyVal)
    (kwargs : List (String × PyVal)) : String :=
  if e.ismethod then e.get_key args.tail kwargs else e.get_key args kwargs

/-- What one call of the wrapped function (inner) produces: the returned
value, the decorator state (offline flag may have flipped), the store, how
many times the underlying function ran, and the store commands issued. -/
structure FetchResult where
  ret : PyVal
  entry : Entry
  store : Store
  fnCalls : Nat
  trace : List Op

/--
inner(*args, **kwargs), transcribed: offline short-circuits to the underlying
function with no store access; otherwise GET the derived key, a connection
error on the GET (getConn = false) flips offline and falls back to the
underlying function; a falsy reply recomputes, serializes and runs the cache
script (a connection error there, writeConn = false, is not caught and
propagates); a truthy reply is deserialized and returned.
-/
def fetch (e : Entry) (st : Store)
    (fn : List PyVal → List (String × PyVal) → PyVal)
    (args : List PyVal) (kwargs : List (String × PyVal))
    (getConn writeConn : Bool) : Except ConnErr FetchResult :=
  if e.offline then
    .ok ⟨fn args kwargs, e, st, 1, []⟩
  else
    let key := fetchKey e args kwargs
    if getConn then
      let result := st.getStr key
      if falsy result then
        let r := fn args kwargs
        let rs := e.serializer r
        if writeConn then
          .ok ⟨r, e, cacheScript st key e.keys_key rs e.ttl e.limit, 1,
            [.opGet key, .opScript key e.keys_key rs e.ttl e.limit]⟩
        else
          .error ⟨⟩
      else
        .ok ⟨e.deserializer (result.getD ""), e, st, 0, [.opGet key]⟩
    else
      .ok ⟨fn args kwargs, { e with offline := true }, st, 1, [.opGet key]⟩

/-- CacheDecorator.invalidate: derive the key from the FULL args (there is no
ismethod handling here), then in one pipelined round trip delete the key and
remove it from the tracking set. -/
def invalidate (e : Entry) (st : Store) (args : List PyVal)
    (kwargs : List (String × PyVal)) (conn : Bool) :
    Except ConnErr (Store × List Op) :=
  let key := e.get_key args kwargs
  if conn then
    let st1 := st.delStr key
    let st2 := st1.setZ e.keys_key (zrem (st1.getZ e.keys_key) [key])
    .ok (st2, [.opDelete [key], .opZRem e.keys_key key])
  else
    .error ⟨⟩

/-- CacheDecorator.invalidate_all: ZRANGE the whole tracking set (ascending by
score), then delete every member key and the tracking set itself. -/
def invalidate_all (e : Entry) (st : Store) (conn : Bool) :
    Except ConnErr (Store × List Op) :=
  if conn then
    let all_keys := (zsort (st.getZ e.keys_key)).map Prod.fst
    let st1 := all_keys.foldl (fun s k => s.delStr k) st
    let st2 := st1.delZ e.keys_key
    .ok (st2, [.opZRange e.keys_key, .opDelete (all_keys ++ [e.keys_key])])
  else
    .error ⟨⟩

/-- The RedisCache instance state used by mget: its own codec and prefix. -/
structure Cache where
  serializer : PyVal → String
  deserializer : String → PyVal
  keyPrefix : String

/-- One element of the fns_with_args argument of RedisCache.mget: the wrapped
function (carrying its decorator as fn.instance, here entry, and the
underlying callable original_fn, here fn) plus args and kwargs. -/
structure Req where
  entry : Entry
  fn : List PyVal → List (String × PyVal) → PyVal
  args : List PyVal
  kwargs : List (String × PyVal)

/-- The keys RedisCache.mget builds: each from fn.instance.get_key applied to
the FULL args and kwargs (no ismethod handling on this path). -/
def mgetKeys (reqs : List Req) : List String :=
  reqs.map (fun r => r.entry.get_key r.args r.kwargs)

/-- A cache-script invocation queued into the mget pipeline. -/
structure ScriptCall where
  pk : String
  tk : String
  value : String
  ttl : Nat
  limit : Nat
deriving Repr, DecidableEq

/-- The mget result loop: a missing reply (None) computes the underlying
function, serializes with the CACHE-level serializer and queues a script call
with the entry ttl and limit; a present reply (even an empty string, since the
test here is result is None) is deserialized with the CACHE-level
deserializer. -/
def mgetLoop (c : Cache) : List (Req × Option String) →
    List PyVal × List ScriptCall
  | [] => ([], [])
  | (r, res) :: rest =>
    let drest := (mgetLoop c rest).1
    let qrest := (mgetLoop c rest).2
    match res with
    | none =>
      let v := r.fn r.args r.kwargs
      let vs := c.serializer v
      (v :: drest,
        ⟨r.entry.get_key r.args r.kwargs, r.entry.keys_key, vs,
          r.entry.ttl, r.entry.limit⟩ :: qrest)
    | some s => (c.deserializer s :: drest, qrest)

/-- Executing the pipelined script calls in queue order. -/
def runScripts (st : Store) (qs : List ScriptCall) : Store :=
  qs.foldl (fun s q => cacheScript s q.pk q.tk q.value q.ttl q.limit) st

structure MgetResult where
  results : List PyVal
  store : Store
  trace : List Op

/--
RedisCache.mget, transcribed: build all keys with get_key of each entry, one
MGET for all of them, compute the misses synchronously in index order queueing
their writes, then execute the pipeline once if and only if at least one miss
occurred.  A connection failure on the round trips (conn = false) is not
caught and propagates.  (The real client raises on an empty key list; claims
about mget are stated for nonempty request lists.)
-/
def mget (c : Cache) (st : Store) (reqs : List Req) (conn : Bool) :
    Except ConnErr MgetResult :=
  let keys := mgetKeys reqs
  if conn then
    let results := keys.map st.getStr
    let dres := (mgetLoop c (reqs.zip results)).1
    let queued := (mgetLoop c (reqs.zip results)).2
    if queued.isEmpty then
      .ok ⟨dres, st, [.opMGet keys]⟩
    else
      .ok ⟨dres, runScripts st queued, [.opMGet keys, .opPipeExec queued.length]⟩
  else
    .error ⟨⟩

/-- A sequence of cache-script writes into one tracking set, the server clock
set before each write (the strictly increasing server times of the claims). -/
structure Write where
  key : String
  value : String
  time : Nat
deriving Repr, DecidableEq

def writeSeq (st : Store) (tk : String) (ttl limit : Nat) : List Write → Store
  | [] => st
  | w :: rest =>
    writeSeq (cacheScript { st with time := w.time } w.key tk w.value ttl limit)
      tk ttl limit rest

/-- The TTL recorded by the SETEX/SET branch of the script. -/
def ttlOpt (ttl : Nat) : Option Nat := if ttl > 0 then some ttl else none

/-! ### Concrete fixtures used by witnesses and counterexamples -/

def fn0 : List PyVal → List (String × PyVal) → PyVal := fun _ _ => .pint 7

def serEmpty : PyVal → String := fun _ => ""

def deser7 : String → PyVal := fun _ => .pint 7

/-- An online entry whose serializer yields the empty string for every value
while its deserializer still inverts it on the value pint 7. -/
def e0 : Entry := ⟨serEmpty, deser7, 0, 0, "rc", "f", false, false⟩

/-- The entry e0 already in offline mode. -/
def eOff : Entry := ⟨serEmpty, deser7, 0, 0, "rc", "f", false, true⟩

def serN : PyVal → String
  | .pint n => if n = 7 then "7" else "i"
  | _ => "x"

def deser7b : String → PyVal := fun s => if s = "7" then .pint 7 else .pnone

/-- An online entry with a nonempty-output serializer that deser7b inverts. -/
def eN : Entry := ⟨serN, deser7b, 0, 0, "rc", "g", false, false⟩

/-- A serializer distinguishing the number of positional arguments in the
[args, kwargs] payload. -/
def serArgCount : PyVal → String
  | .plist (.plist args :: _) => if args.length = 2 then "two" else "one"
  | _ => "x"

/-- An entry declared with ismethod = true. -/
def eM : Entry := ⟨serArgCount, deser7, 0, 0, "rc", "m", true, false⟩

def st0 : Store := ⟨[], [], 5⟩

/-- st0 after e0 cached pint 7 under the empty serialization. -/
def stC1 : Store := ⟨[("rc:f:", ⟨"", none⟩)], [], 5⟩

/-- A store where the key eN derives for no arguments is cached. -/
def stHit : Store := ⟨[("rc:g:x", ⟨"7", none⟩)], [], 5⟩

/-- A RedisCache instance whose codec differs from the codec of each entry. -/
def c0 : Cache := ⟨serN, deser7b, "rc"⟩

/-- A store whose tracking set for e0 is populated. -/
def stZ : Store := ⟨[("k1", ⟨"v1", none⟩)], [("rc:f:keys", [("k1", 3)])], 5⟩

/-- A store with an over-full tracking set named tk. -/
def stC3 : Store := ⟨[], [("tk", [("a", 1), ("b", 2), ("c", 3)])], 9⟩

def wA : Write := ⟨"a", "va", 1⟩

def wB : Write := ⟨"b", "vb", 2⟩

/-! ### Store access lemmas -/

theorem Store.getStr_setStr (s : Store) (k v : String) (t : Option Nat)
    (k2 : String) :
    (s.setStr k v t).getStr k2 = if k2 = k then some v else s.getStr k2 := by
  by_cases h : k2 = k <;> simp [Store.getStr, Store.setStr, alGet_alSet, h]

theorem Store.getStr_delStr (s : Store) (k k2 : String) :
    (s.delStr k).getStr k2 = if k2 = k then none else s.getStr k2 := by
  by_cases h : k2 = k <;> simp [Store.getStr, Store.delStr, alGet_alRemove, h]

theorem Store.getZ_setZ (s : Store) (k : String) (z : List ZEntry)
    (k2 : String) :
    (s.setZ k z).getZ k2 = if k2 = k then z else s.getZ k2 := by
  by_cases h : k2 = k <;> simp [Store.getZ, Store.setZ, alGet_alSet, h]

theorem Store.getZ_setStr (s : Store) (k v : String) (t : Option Nat)
    (k2 : String) : (s.setStr k v t).getZ k2 = s.getZ k2 := rfl

theorem Store.getStr_setZ (s : Store) (k : String) (z : List ZEntry)
    (k2 : String) : (s.setZ k z).getStr k2 = s.getStr k2 := rfl

theorem Store.getStr_foldl_delStr (ks : List String) (s : Store) (k : String) :
    (ks.foldl (fun st k2 => st.delStr k2) s).getStr k =
      if k ∈ ks then none else s.getStr k := by
  induction ks generalizing s with
  | nil => simp
  | cons k0 rest ih =>
    rw [List.foldl_cons, ih]
    by_cases h0 : k = k0
    · subst h0
      by_cases h : k ∈ rest <;> simp [h, Store.getStr_delStr]
    · by_cases h : k ∈ rest <;> simp [h, h0, Store.getStr_delStr]

theorem Store.zsets_foldl_delStr (ks : List String) (s : Store) :
    (ks.foldl (fun st k2 => st.delStr k2) s).zsets = s.zsets := by
  induction ks generalizing s with
  | nil => rfl
  | cons k0 rest ih => rw [List.foldl_cons, ih]; rfl

theorem Store.time_setStr (s : Store) (k v : String) (t : Option Nat) :
    (s.setStr k v t).time = s.time := rfl

/-! ### Shape lemmas for the cache script -/

theorem cacheScript_set (s : Store) (pk value : String) (ttl : Nat) :
    (if ttl > 0 then s.setStr pk value (some ttl) else s.setStr pk value none) =
      s.setStr pk value (ttlOpt ttl) := by
  unfold ttlOpt; split <;> rfl

/-- With limit = 0 the script is just the SETEX/SET. -/
theorem cacheScript_limit_zero (s : Store) (pk tk value : String) (ttl : Nat) :
    cacheScript s pk tk value ttl 0 = s.setStr pk value (ttlOpt ttl) := by
  by_cases httl : ttl > 0 <;> simp [cacheScript, ttlOpt, httl]

/-- With a positive limit and no overflow after the ZADD, the script is the
SETEX/SET followed by the ZADD. -/
theorem cacheScript_no_evict (s : Store) (pk tk value : String)
    (ttl limit : Nat) (hl : 0 < limit)
    (hcount : zcount (zadd (s.getZ tk) s.time pk) ≤ limit) :
    cacheScript s pk tk value ttl limit =
      (s.setStr pk value (ttlOpt ttl)).setZ tk (zadd (s.getZ tk) s.time pk) := by
  have hover : ¬ limit < zcount (zadd (s.getZ tk) s.time pk) :=
    Nat.not_lt.mpr hcount
  by_cases httl : ttl > 0 <;>
    simp [cacheScript, ttlOpt, httl, hl, Store.getZ_setStr, Store.time_setStr,
      hover]

/-- With a positive limit and an overflow, the script pops the lowest-scored
entries, removes them again, stores the rest and deletes the stale keys. -/
theorem cacheScript_evict (s : Store) (pk tk value : String)
    (ttl limit : Nat) (hl : 0 < limit)
    (hover : limit < zcount (zadd (s.getZ tk) s.time pk)) :
    cacheScript s pk tk value ttl limit =
      (((zsort (zadd (s.getZ tk) s.time pk)).take
          (zcount (zadd (s.getZ tk) s.time pk) - limit)).map Prod.fst).foldl
        (fun st k => st.delStr k)
        ((s.setStr pk value (ttlOpt ttl)).setZ tk
          (zrem ((zsort (zadd (s.getZ tk) s.time pk)).drop
              (zcount (zadd (s.getZ tk) s.time pk) - limit))
            (((zsort (zadd (s.getZ tk) s.time pk)).take
                (zcount (zadd (s.getZ tk) s.time pk) - limit)).map Prod.fst))) := by
  by_cases httl : ttl > 0 <;>
    simp [cacheScript, ttlOpt, httl, hl, Store.getZ_setStr, Store.time_setStr,
      zpopmin, hover]

/-! ### Sorted-set lemmas -/

theorem zadd_of_not_mem (z : List ZEntry) (t : Nat) (pk : String)
    (h : pk ∉ z.map Prod.fst) : zadd z t pk = (pk, t) :: z := by
  unfold zadd
  congr 1
  apply List.filter_eq_self.mpr
  intro p hp
  have hne : p.1 ≠ pk := by
    intro he
    exact h (he ▸ List.mem_map_of_mem Prod.fst hp)
  simpa using hne

theorem zcount_zadd_le (z : List ZEntry) (t : Nat) (pk : String) :
    zcount (zadd z t pk) ≤ zcount z + 1 := by
  have hle := List.length_filter_le (fun p : ZEntry => p.1 != pk) z
  unfold zadd zcount
  simp only [List.length_cons]
  omega

theorem zinsert_perm (p : ZEntry) (l : List ZEntry) :
    (zinsert p l).Perm (p :: l) := by
  induction l with
  | nil => exact List.Perm.refl _
  | cons q rest ih =>
    unfold zinsert
    split
    · exact List.Perm.refl _
    · exact (ih.cons q).trans (List.Perm.swap p q rest)

theorem zsort_perm (l : List ZEntry) : (zsort l).Perm l := by
  induction l with
  | nil => exact List.Perm.refl _
  | cons p rest ih =>
    exact (zinsert_perm p (zsort rest)).trans (ih.cons p)

theorem zsort_length (l : List ZEntry) : (zsort l).length = l.length :=
  (zsort_perm l).length_eq

theorem zinsert_of_gt (p : ZEntry) (l : List ZEntry)
    (h : ∀ q ∈ l, q.2 < p.2) : zinsert p l = l ++ [p] := by
  induction l with
  | nil => rfl
  | cons q rest ih =>
    have hq : q.2 < p.2 := h q (List.mem_cons_self q rest)
    have hle : zleb p q = false := by
      unfold zleb
      simp [Nat.lt_asymm hq, hq]
    unfold zinsert
    simp [hle, ih fun q2 hq2 => h q2 (List.mem_cons_of_mem q hq2)]

theorem zsort_of_strictDesc (l : List ZEntry)
    (h : l.Pairwise (fun a b => b.2 < a.2)) : zsort l = l.reverse := by
  induction l with
  | nil => rfl
  | cons p rest ih =>
    rw [List.pairwise_cons] at h
    unfold zsort
    rw [ih h.2, zinsert_of_gt]
    · simp
    · intro q hq
      exact h.1 q (List.mem_reverse.mp hq)

theorem nodup_fst_zadd (z : List ZEntry) (t : Nat) (pk : String)
    (h : (z.map Prod.fst).Nodup) : ((zadd z t pk).map Prod.fst).Nodup := by
  unfold zadd
  simp only [List.map_cons, List.nodup_cons]
  constructor
  · intro hmem
    obtain ⟨p, hp, hpk⟩ := List.mem_map.mp hmem
    have := (List.mem_filter.mp hp).2
    simp [hpk] at this
  · exact List.Nodup.sublist ((List.filter_sublist z).map Prod.fst) h

theorem zrem_eq_self (z : List ZEntry) (ms : List String)
    (h : ∀ p ∈ z, p.1 ∉ ms) : zrem z ms = z := by
  unfold zrem
  apply List.filter_eq_self.mpr
  intro p hp
  simpa using h p hp

theorem zrem_drop_take (l : List ZEntry) (n : Nat)
    (h : (l.map Prod.fst).Nodup) :
    zrem (l.drop n) ((l.take n).map Prod.fst) = l.drop n := by
  apply zrem_eq_self
  intro p hp hmem
  have h1 : p.1 ∈ (l.drop n).map Prod.fst := List.mem_map_of_mem Prod.fst hp
  have hsplit : l.map Prod.fst =
      (l.take n).map Prod.fst ++ (l.drop n).map Prod.fst := by
    rw [← List.map_append, List.take_append_drop]
  rw [hsplit] at h
  exact (List.disjoint_of_nodup_append h) hmem h1

/-! ### GET after the script -/

theorem cacheScript_getStr_no_evict (s : Store) (pk tk value : String)
    (ttl limit : Nat)
    (h : limit = 0 ∨ zcount (s.getZ tk) < limit) :
    (cacheScript s pk tk value ttl limit).getStr pk = some value := by
  rcases h with h | h
  · subst h
    rw [cacheScript_limit_zero]
    simp [Store.getStr_setStr]
  · have hl : 0 < limit := Nat.lt_of_le_of_lt (Nat.zero_le _) h
    have hcount : zcount (zadd (s.getZ tk) s.time pk) ≤ limit :=
      le_trans (zcount_zadd_le _ _ _) (Nat.succ_le_of_lt h)
    rw [cacheScript_no_evict s pk tk value ttl limit hl hcount]
    simp [Store.getStr_setZ, Store.getStr_setStr]

theorem falsy_cacheScript_empty (s : Store) (pk tk : String)
    (ttl limit : Nat) :
    falsy ((cacheScript s pk tk "" ttl limit).getStr pk) = true := by
  by_cases hl : 0 < limit
  · by_cases hov : limit < zcount (zadd (s.getZ tk) s.time pk)
    · rw [cacheScript_evict s pk tk "" ttl limit hl hov,
        Store.getStr_foldl_delStr]
      split
      · rfl
      · simp [Store.getStr_setZ, Store.getStr_setStr, falsy]
    · rw [cacheScript_no_evict s pk tk "" ttl limit hl (Nat.not_lt.mp hov)]
      simp [Store.getStr_setZ, Store.getStr_setStr, falsy]
  · have h0 : limit = 0 := Nat.eq_zero_of_not_pos hl
    subst h0
    rw [cacheScript_limit_zero]
    simp [Store.getStr_setStr, falsy]

/-! ### Sequential writes -/

theorem writeSeq_append (st : Store) (tk : String) (ttl limit : Nat)
    (a b : List Write) :
    writeSeq st tk ttl limit (a ++ b) =
      writeSeq (writeSeq st tk ttl limit a) tk ttl limit b := by
  induction a generalizing st with
  | nil => rfl
  | cons w rest ih =>
    simp only [List.cons_append, writeSeq]
    exact ih _

/-- Filling a tracking set that has room for all the writes: no eviction
happens and the writes pile up (most recent first), provided the keys are
fresh and pairwise distinct. -/
theorem writeSeq_fill (tk : String) (ttl limit : Nat) (ws : List Write)
    (st : Store)
    (hcount : zcount (st.getZ tk) + ws.length ≤ limit)
    (hnd : (ws.map Write.key).Nodup)
    (hmem : ∀ w ∈ ws, w.key ∉ (st.getZ tk).map Prod.fst) :
    (writeSeq st tk ttl limit ws).getZ tk =
      (ws.map (fun w => (w.key, w.time))).reverse ++ st.getZ tk := by
  induction ws generalizing st with
  | nil => simp [writeSeq]
  | cons w rest ih =>
    have hl : 0 < limit := by
      simp only [List.length_cons] at hcount; omega
    have hndc := List.nodup_cons.mp (show (w.key :: rest.map Write.key).Nodup from hnd)
    have hmemw : w.key ∉ (st.getZ tk).map Prod.fst :=
      hmem w (List.mem_cons_self w rest)
    have hgz1 : Store.getZ { st with time := w.time } tk = st.getZ tk := rfl
    have hzadd : zadd (Store.getZ { st with time := w.time } tk)
        (Store.time { st with time := w.time }) w.key
        = (w.key, w.time) :: st.getZ tk := by
      rw [hgz1]
      exact zadd_of_not_mem _ _ _ hmemw
    have hc2 : zcount (zadd (Store.getZ { st with time := w.time } tk)
        (Store.time { st with time := w.time }) w.key) ≤ limit := by
      rw [hzadd]
      simp only [zcount, List.length_cons] at hcount ⊢
      omega
    have hstep : cacheScript { st with time := w.time } w.key tk w.value ttl limit
        = (Store.setStr { st with time := w.time } w.key w.value
              (ttlOpt ttl)).setZ tk ((w.key, w.time) :: st.getZ tk) := by
      rw [cacheScript_no_evict _ _ _ _ _ _ hl hc2, hzadd]
    set st2 := (Store.setStr { st with time := w.time } w.key w.value
        (ttlOpt ttl)).setZ tk ((w.key, w.time) :: st.getZ tk) with hst2
    have hgz2 : st2.getZ tk = (w.key, w.time) :: st.getZ tk := by
      rw [hst2]
      simp [Store.getZ_setZ]
    have hcount2 : zcount (st2.getZ tk) + rest.length ≤ limit := by
      rw [hgz2]
      simp only [zcount, List.length_cons] at hcount ⊢
      omega
    have hmem2 : ∀ w2 ∈ rest, w2.key ∉ (st2.getZ tk).map Prod.fst := by
      intro w2 hw2
      rw [hgz2]
      simp only [List.map_cons, List.mem_cons]
      rintro (heq | hmem3)
      · exact hndc.1 (heq ▸ List.mem_map_of_mem Write.key hw2)
      · exact hmem w2 (List.mem_cons_of_mem w hw2) hmem3
    have ihr := ih st2 hcount2 hndc.2 hmem2
    simp only [writeSeq, hstep]
    rw [ihr, hgz2]
    simp [List.append_assoc]

theorem Store.getZ_foldl_delStr (ks : List String) (s : Store) (k : String) :
    (ks.foldl (fun st k2 => st.delStr k2) s).getZ k = s.getZ k := by
  unfold Store.getZ
  rw [Store.zsets_foldl_delStr]

/-- C2: starting from an empty tracking set, writing N distinct keys with
strictly increasing server times and then one more evicts exactly the first
written key, leaves the other N tracked in score order, and deletes the first
key from the string store. -/
theorem claim_C2 (N : Nat) (tk : String) (ttl : Nat) (st : Store)
    (ws : List Write) (q : Write)
    (hN : 0 < N) (hlen : ws.length = N)
    (hnd : ((ws ++ [q]).map Write.key).Nodup)
    (htimes : (ws ++ [q]).Pairwise (fun a b => a.time < b.time))
    (hempty : st.getZ tk = []) :
    (writeSeq st tk ttl N (ws ++ [q])).getZ tk =
        ws.tail.map (fun w => (w.key, w.time)) ++ [(q.key, q.time)]
    ∧ zcount ((writeSeq st tk ttl N (ws ++ [q])).getZ tk) = N
    ∧ ∀ w0, ws.head? = some w0 →
        (writeSeq st tk ttl N (ws ++ [q])).getStr w0.key = none := by
  have hndws : (ws.map Write.key).Nodup := by
    rw [List.map_append] at hnd
    exact (List.nodup_append.mp hnd).1
  have hqnot : q.key ∉ ws.map Write.key := by
    rw [List.map_append] at hnd
    intro hmemq
    exact (List.nodup_append.mp hnd).2.2 hmemq (by simp)
  have hmid : (writeSeq st tk ttl N ws).getZ tk =
      (ws.map (fun w => (w.key, w.time))).reverse := by
    have hfill := writeSeq_fill tk ttl N ws st
      (by rw [hempty]; simp [zcount, hlen])
      hndws
      (by intro w hw; rw [hempty]; simp)
    rw [hempty] at hfill
    simpa using hfill
  rw [writeSeq_append]
  set mid := writeSeq st tk ttl N ws with hmiddef
  simp only [writeSeq]
  have hgz : Store.getZ { mid with time := q.time } tk =
      (ws.map (fun w => (w.key, w.time))).reverse := hmid
  have htm : Store.time { mid with time := q.time } = q.time := rfl
  have hzadd : zadd (Store.getZ { mid with time := q.time } tk)
      (Store.time { mid with time := q.time }) q.key
      = (q.key, q.time) :: (ws.map (fun w => (w.key, w.time))).reverse := by
    rw [hgz, htm]
    apply zadd_of_not_mem
    simp only [List.map_reverse, List.mem_reverse, List.map_map]
    simpa [Function.comp] using hqnot
  have hcount1 : zcount (zadd (Store.getZ { mid with time := q.time } tk)
      (Store.time { mid with time := q.time }) q.key) = N + 1 := by
    rw [hzadd]
    simp [zcount, hlen]
  have hover : N < zcount (zadd (Store.getZ { mid with time := q.time } tk)
      (Store.time { mid with time := q.time }) q.key) := by
    rw [hcount1]; omega
  rw [cacheScript_evict _ _ _ _ _ _ hN hover, hcount1, hzadd]
  have hov1 : N + 1 - N = 1 := by omega
  rw [hov1]
  have hsorted : zsort ((q.key, q.time) ::
        (ws.map (fun w => (w.key, w.time))).reverse)
      = ws.map (fun w => (w.key, w.time)) ++ [(q.key, q.time)] := by
    have hpw : (((ws ++ [q]).map
        (fun w => (w.key, w.time))).reverse).Pairwise
          (fun a b => b.2 < a.2) := by
      rw [List.pairwise_reverse]
      exact htimes.map _ (fun a b h => h)
    have hrev : ((ws ++ [q]).map (fun w => (w.key, w.time))).reverse
        = (q.key, q.time) :: (ws.map (fun w => (w.key, w.time))).reverse := by
      simp
    rw [hrev] at hpw
    rw [zsort_of_strictDesc _ hpw]
    simp
  rw [hsorted]
  cases ws with
  | nil => simp at hlen; omega
  | cons w0 ws' =>
    have hndc := List.nodup_cons.mp
      (show (w0.key :: (ws' ++ [q]).map Write.key).Nodup by
        simpa using hnd)
    have hw0q : w0.key ≠ q.key := by
      intro he
      exact hndc.1 (by simp [he])
    have hw0ws : w0.key ∉ ws'.map Write.key := by
      intro he
      exact hndc.1 (by simp [he])
    have htake : (((w0 :: ws').map (fun w => (w.key, w.time))
          ++ [(q.key, q.time)]).take 1).map Prod.fst = [w0.key] := by
      simp
    have hdrop : ((w0 :: ws').map (fun w => (w.key, w.time))
          ++ [(q.key, q.time)]).drop 1
        = ws'.map (fun w => (w.key, w.time)) ++ [(q.key, q.time)] := by
      simp
    rw [htake, hdrop]
    have hzrem : zrem (ws'.map (fun w => (w.key, w.time)) ++ [(q.key, q.time)])
        [w0.key] = ws'.map (fun w => (w.key, w.time)) ++ [(q.key, q.time)] := by
      apply zrem_eq_self
      intro p hp
      simp only [List.mem_append, List.mem_map, List.mem_singleton] at hp
      rcases hp with ⟨w2, hw2, rfl⟩ | rfl
      · simp only [List.mem_singleton]
        intro he
        exact hw0ws (he ▸ List.mem_map_of_mem Write.key hw2)
      · simpa using fun he => hw0q he.symm
    rw [hzrem]
    refine ⟨?_, ?_, ?_⟩
    · rw [Store.getZ_foldl_delStr]
      simp [Store.getZ_setZ]
    · rw [Store.getZ_foldl_delStr]
      simp only [List.length_cons] at hlen
      simp [Store.getZ_setZ, zcount]
      omega
    · intro wh hwh
      simp only [List.head?_cons, Option.some_inj] at hwh
      subst hwh
      rw [Store.getStr_foldl_delStr]
      simp

/-! ### Branch lemmas for fetch -/

theorem fetch_offline (e : Entry) (st : Store)
    (fn : List PyVal → List (String × PyVal) → PyVal)
    (args : List PyVal) (kwargs : List (String × PyVal)) (gc wc : Bool)
    (h : e.offline = true) :
    fetch e st fn args kwargs gc wc = .ok ⟨fn args kwargs, e, st, 1, []⟩ := by
  simp [fetch, h]

theorem fetch_getfail (e : Entry) (st : Store)
    (fn : List PyVal → List (String × PyVal) → PyVal)
    (args : List PyVal) (kwargs : List (String × PyVal)) (wc : Bool)
    (h : e.offline = false) :
    fetch e st fn args kwargs false wc =
      .ok ⟨fn args kwargs, { e with offline := true }, st, 1,
        [.opGet (fetchKey e args kwargs)]⟩ := by
  simp [fetch, h]

theorem fetch_miss (e : Entry) (st : Store)
    (fn : List PyVal → List (String × PyVal) → PyVal)
    (args : List PyVal) (kwargs : List (String × PyVal))
    (h : e.offline = false)
    (hm : falsy (st.getStr (fetchKey e args kwargs)) = true) :
    fetch e st fn args kwargs true true =
      .ok ⟨fn args kwargs, e,
        cacheScript st (fetchKey e args kwargs) e.keys_key
          (e.serializer (fn args kwargs)) e.ttl e.limit, 1,
        [.opGet (fetchKey e args kwargs),
          .opScript (fetchKey e args kwargs) e.keys_key
            (e.serializer (fn args kwargs)) e.ttl e.limit]⟩ := by
  simp [fetch, h, hm]

theorem fetch_miss_writefail (e : Entry) (st : Store)
    (fn : List PyVal → List (String × PyVal) → PyVal)
    (args : List PyVal) (kwargs : List (String × PyVal))
    (h : e.offline = false)
    (hm : falsy (st.getStr (fetchKey e args kwargs)) = true) :
    fetch e st fn args kwargs true false = .error ⟨⟩ := by
  simp [fetch, h, hm]

theorem fetch_hit (e : Entry) (st : Store)
    (fn : List PyVal → List (String × PyVal) → PyVal)
    (args : List PyVal) (kwargs : List (String × PyVal)) (wc : Bool)
    (h : e.offline = false)
    (hm : falsy (st.getStr (fetchKey e args kwargs)) = false) :
    fetch e st fn args kwargs true wc =
      .ok ⟨e.deserializer ((st.getStr (fetchKey e args kwargs)).getD ""),
        e, st, 0, [.opGet (fetchKey e args kwargs)]⟩ := by
  simp [fetch, h, hm]

/-- C2 witness: limit 1, two writes with keys a then b at times 1 then 2;
b stays tracked, a is evicted and its entry deleted. -/
theorem claim_C2_witness :
    ((0:Nat) < 1 ∧ [wA].length = 1
      ∧ (([wA] ++ [wB]).map Write.key).Nodup
      ∧ ([wA] ++ [wB]).Pairwise (fun a b => a.time < b.time)
      ∧ st0.getZ "tk" = [])
    ∧ (writeSeq st0 "tk" 0 1 ([wA] ++ [wB])).getZ "tk" = [("b", 2)]
    ∧ zcount ((writeSeq st0 "tk" 0 1 ([wA] ++ [wB])).getZ "tk") = 1
    ∧ (writeSeq st0 "tk" 0 1 ([wA] ++ [wB])).getStr "a" = none := by
  have h := claim_C2 1 "tk" 0 st0 [wA] wB (by decide) rfl (by decide)
    (by decide) rfl
  exact ⟨⟨by decide, rfl, by decide, by decide, rfl⟩,
    h.1, h.2.1, h.2.2 wA rfl⟩

/-- C3: with a positive limit, one script invocation leaves at most limit
tracked members, and on overflow what remains is exactly the sorted tracking
set with the lowest-scored members dropped. -/
theorem claim_C3 (s : Store) (pk tk value : String) (ttl limit : Nat)
    (hl : 0 < limit)
    (hnd : ((s.getZ tk).map Prod.fst).Nodup) :
    zcount ((cacheScript s pk tk value ttl limit).getZ tk) ≤ limit
    ∧ (limit < zcount (zadd (s.getZ tk) s.time pk) →
        (cacheScript s pk tk value ttl limit).getZ tk =
          (zsort (zadd (s.getZ tk) s.time pk)).drop
            (zcount (zadd (s.getZ tk) s.time pk) - limit)) := by
  have hndz : ((zadd (s.getZ tk) s.time pk).map Prod.fst).Nodup :=
    nodup_fst_zadd _ _ _ hnd
  have hnds : ((zsort (zadd (s.getZ tk) s.time pk)).map Prod.fst).Nodup := by
    have hp := (zsort_perm (zadd (s.getZ tk) s.time pk)).map Prod.fst
    exact hp.nodup_iff.mpr hndz
  by_cases hov : limit < zcount (zadd (s.getZ tk) s.time pk)
  · have hz := cacheScript_evict s pk tk value ttl limit hl hov
    constructor
    · rw [hz, Store.getZ_foldl_delStr]
      simp only [Store.getZ_setZ, eq_self_iff_true, if_true]
      rw [zrem_drop_take _ _ hnds]
      simp only [zcount, List.length_drop, zsort_length]
      omega
    · intro _
      rw [hz, Store.getZ_foldl_delStr]
      simp only [Store.getZ_setZ, eq_self_iff_true, if_true]
      rw [zrem_drop_take _ _ hnds]
  · constructor
    · rw [cacheScript_no_evict s pk tk value ttl limit hl (Nat.not_lt.mp hov)]
      simp only [Store.getZ_setZ, eq_self_iff_true, if_true]
      exact Nat.not_lt.mp hov
    · intro h
      exact absurd h hov

/-- C3 witness: tracking set with three members, limit 1: after the script the
set holds only the newly written key, the one with the highest score. -/
theorem claim_C3_witness :
    ((0:Nat) < 1 ∧ ((stC3.getZ "tk").map Prod.fst).Nodup)
    ∧ zcount ((cacheScript stC3 "d" "tk" "v" 0 1).getZ "tk") ≤ 1
    ∧ (cacheScript stC3 "d" "tk" "v" 0 1).getZ "tk" =
        (zsort (zadd (stC3.getZ "tk") stC3.time "d")).drop
          (zcount (zadd (stC3.getZ "tk") stC3.time "d") - 1) := by
  have h := claim_C3 stC3 "d" "tk" "v" 0 1 (by decide) (by decide)
  exact ⟨⟨by decide, by decide⟩, h.1, h.2 (by decide)⟩

/-! ### Limit-zero frame lemmas -/

theorem cacheScript_zsets_limit_zero (s : Store) (pk tk v : String)
    (ttl : Nat) : (cacheScript s pk tk v ttl 0).zsets = s.zsets := by
  rw [cacheScript_limit_zero]; rfl

theorem mgetLoop_limit_zero (c : Cache) (l : List (Req × Option String))
    (h : ∀ pr ∈ l, pr.1.entry.limit = 0) :
    ∀ sc ∈ (mgetLoop c l).2, sc.limit = 0 := by
  induction l with
  | nil => intro sc hsc; simp [mgetLoop] at hsc
  | cons pr rest ih =>
    obtain ⟨r, res⟩ := pr
    intro sc hsc
    cases res with
    | none =>
      simp only [mgetLoop, List.mem_cons] at hsc
      rcases hsc with rfl | hsc
      · exact h (r, none) (List.mem_cons_self _ _)
      · exact ih (fun pr2 hpr2 => h pr2 (List.mem_cons_of_mem _ hpr2)) sc hsc
    | some str =>
      simp only [mgetLoop] at hsc
      exact ih (fun pr2 hpr2 => h pr2 (List.mem_cons_of_mem _ hpr2)) sc hsc

theorem runScripts_zsets_limit_zero :
    ∀ (qs : List ScriptCall) (st : Store), (∀ q ∈ qs, q.limit = 0) →
      (runScripts st qs).zsets = st.zsets := by
  intro qs
  induction qs with
  | nil => intro st _; rfl
  | cons q rest ih =>
    intro st h
    have h1 : (runScripts st (q :: rest)).zsets =
        (cacheScript st q.pk q.tk q.value q.ttl q.limit).zsets := by
      simp only [runScripts, List.foldl_cons]
      exact ih _ (fun q2 hq2 => h q2 (List.mem_cons_of_mem _ hq2))
    rw [h1, show q.limit = 0 from h q (List.mem_cons_self _ _),
      cacheScript_zsets_limit_zero]

theorem writeSeq_zsets_limit_zero :
    ∀ (ws : List Write) (st : Store) (tk : String) (ttl : Nat),
      (writeSeq st tk ttl 0 ws).zsets = st.zsets := by
  intro ws
  induction ws with
  | nil => intro st tk ttl; rfl
  | cons w rest ih =>
    intro st tk ttl
    simp only [writeSeq]
    rw [ih, cacheScript_zsets_limit_zero]

/-- C8 counterexample: the claim says a tracking set of a limit = 0 entry is
never written to or read by ANY operation, but invalidate_all still issues a
ZRANGE read on it and deletes it. -/
theorem claim_C8_counterexample :
    e0.limit = 0
    ∧ invalidate_all e0 stZ true =
        .ok (⟨[], [], 5⟩,
          [.opZRange "rc:f:keys", .opDelete ["k1", "rc:f:keys"]]) :=
  ⟨rfl, rfl⟩

/-- C8 (amended): with limit = 0, the WRITE paths (fetch misses, batch misses,
any sequence of script writes) never create or mutate any tracking set; the
invalidation operations however still access it. -/
theorem claim_C8 (e : Entry) (st : Store)
    (fn : List PyVal → List (String × PyVal) → PyVal)
    (args : List PyVal) (kwargs : List (String × PyVal)) (gc wc : Bool)
    (c : Cache) (reqs : List Req) (conn : Bool)
    (tk : String) (ttl : Nat) (ws : List Write)
    (he : e.limit = 0)
    (hreqs : ∀ r ∈ reqs, r.entry.limit = 0) :
    (∀ out, fetch e st fn args kwargs gc wc = .ok out →
        out.store.zsets = st.zsets)
    ∧ (∀ out, mget c st reqs conn = .ok out → out.store.zsets = st.zsets)
    ∧ (writeSeq st tk ttl 0 ws).zsets = st.zsets := by
  refine ⟨?_, ?_, writeSeq_zsets_limit_zero ws st tk ttl⟩
  · intro out hout
    by_cases ho : e.offline = true
    · rw [fetch_offline e st fn args kwargs gc wc ho] at hout
      have h := Except.ok.inj hout
      subst h
      rfl
    · have ho2 : e.offline = false := by
        cases h : e.offline
        · rfl
        · exact absurd h ho
      cases gc with
      | false =>
        rw [fetch_getfail e st fn args kwargs wc ho2] at hout
        have h := Except.ok.inj hout
        subst h
        rfl
      | true =>
        by_cases hm : falsy (st.getStr (fetchKey e args kwargs)) = true
        · cases wc with
          | false =>
            rw [fetch_miss_writefail e st fn args kwargs ho2 hm] at hout
            exact absurd hout (by simp)
          | true =>
            rw [fetch_miss e st fn args kwargs ho2 hm] at hout
            have h := Except.ok.inj hout
            subst h
            simp only
            rw [he, cacheScript_zsets_limit_zero]
        · have hm2 : falsy (st.getStr (fetchKey e args kwargs)) = false :=
            Bool.eq_false_iff.mpr hm
          rw [fetch_hit e st fn args kwargs wc ho2 hm2] at hout
          have h := Except.ok.inj hout
          subst h
          rfl
  · intro out hout
    cases conn with
    | false => simp [mget] at hout
    | true =>
      simp only [mget, if_true] at hout
      split at hout
      · have h := Except.ok.inj hout
        subst h
        rfl
      · have h := Except.ok.inj hout
        subst h
        simp only
        apply runScripts_zsets_limit_zero
        apply mgetLoop_limit_zero
        intro pr hpr
        exact hreqs pr.1 (List.of_mem_zip hpr).1

/-- C8 witness: a limit = 0 entry caching a miss, and two sequential
limit = 0 writes, leave the (empty) collection of tracking sets untouched. -/
theorem claim_C8_witness :
    e0.limit = 0
    ∧ stC1.zsets = st0.zsets
    ∧ (writeSeq st0 "tk" 0 0 [wA, wB]).zsets = st0.zsets := by
  have h := claim_C8 e0 st0 fn0 [] [] true true c0 [] true "tk" 0 [wA, wB]
    rfl (fun r hr => absurd hr (List.not_mem_nil r))
  exact ⟨rfl,
    h.1 ⟨.pint 7, e0, stC1, 1,
      [.opGet "rc:f:", .opScript "rc:f:" "rc:f:keys" "" 0 0]⟩ rfl,
    h.2.2⟩

/-- C4: a GET connection failure flips the offline flag on; an offline entry
answers every fetch by running the underlying function directly, issues no
store command at all, leaves the store untouched and keeps the flag set. -/
theorem claim_C4 (e : Entry) (st : Store)
    (fn : List PyVal → List (String × PyVal) → PyVal)
    (args : List PyVal) (kwargs : List (String × PyVal)) (gc wc : Bool) :
    (e.offline = false →
      fetch e st fn args kwargs false wc =
        .ok ⟨fn args kwargs, { e with offline := true }, st, 1,
          [.opGet (fetchKey e args kwargs)]⟩)
    ∧ (e.offline = true →
      fetch e st fn args kwargs gc wc = .ok ⟨fn args kwargs, e, st, 1, []⟩) :=
  ⟨fun h => fetch_getfail e st fn args kwargs wc h,
   fun h => fetch_offline e st fn args kwargs gc wc h⟩

/-- C4 witness: a concrete offline entry computes directly with empty trace. -/
theorem claim_C4_witness :
    eOff.offline = true
    ∧ fetch eOff st0 fn0 [] [] true true = .ok ⟨.pint 7, eOff, st0, 1, []⟩ :=
  ⟨rfl, (claim_C4 eOff st0 fn0 [] [] true true).2 rfl⟩

/-- C5: a connection failure on the GET is caught (fetch still returns ok,
going offline), while a failure during the post-miss script write, during
mget, or during invalidate and invalidate_all is not caught and surfaces as
an error. -/
theorem claim_C5 (e : Entry) (st : Store)
    (fn : List PyVal → List (String × PyVal) → PyVal)
    (args : List PyVal) (kwargs : List (String × PyVal)) (wc : Bool)
    (c : Cache) (reqs : List Req)
    (e2 : Entry) (st2 : Store) (args2 : List PyVal)
    (kwargs2 : List (String × PyVal)) :
    (e.offline = false →
      fetch e st fn args kwargs false wc =
        .ok ⟨fn args kwargs, { e with offline := true }, st, 1,
          [.opGet (fetchKey e args kwargs)]⟩)
    ∧ (e.offline = false → falsy (st.getStr (fetchKey e args kwargs)) = true →
        fetch e st fn args kwargs true false = .error ⟨⟩)
    ∧ mget c st reqs false = .error ⟨⟩
    ∧ invalidate e2 st2 args2 kwargs2 false = .error ⟨⟩
    ∧ invalidate_all e2 st2 false = .error ⟨⟩ :=
  ⟨fun h => fetch_getfail e st fn args kwargs wc h,
   fun h hm => fetch_miss_writefail e st fn args kwargs h hm,
   rfl, rfl, rfl⟩

/-- C5 witness: on a concrete entry the failing GET is recovered into an ok
result while the failing write, mget and invalidations all error out. -/
theorem claim_C5_witness :
    (e0.offline = false ∧ falsy (st0.getStr (fetchKey e0 [] [])) = true)
    ∧ fetch e0 st0 fn0 [] [] false true =
        .ok ⟨.pint 7, eOff, st0, 1, [.opGet "rc:f:"]⟩
    ∧ fetch e0 st0 fn0 [] [] true false = .error ⟨⟩
    ∧ mget c0 st0 [] false = .error ⟨⟩
    ∧ invalidate e0 st0 [] [] false = .error ⟨⟩
    ∧ invalidate_all e0 st0 false = .error ⟨⟩ := by
  have h := claim_C5 e0 st0 fn0 [] [] true c0 [] e0 st0 [] []
  exact ⟨⟨rfl, rfl⟩, h.1 rfl, h.2.1 rfl rfl, h.2.2.1, h.2.2.2.1, h.2.2.2.2⟩

/-- C1 counterexample: with a serializer whose output on the computed value is
the empty string and a deserializer that still inverts it on that value, the
second fetch runs the underlying function again (fnCalls = 1 instead of 0),
because the stored empty value is treated as a miss. -/
theorem claim_C1_counterexample :
    e0.deserializer (e0.serializer (.pint 7)) = .pint 7
    ∧ fetch e0 st0 fn0 [] [] true true =
        .ok ⟨.pint 7, e0, stC1, 1,
          [.opGet "rc:f:", .opScript "rc:f:" "rc:f:keys" "" 0 0]⟩
    ∧ fetch e0 stC1 fn0 [] [] true true =
        .ok ⟨.pint 7, e0, stC1, 1,
          [.opGet "rc:f:", .opScript "rc:f:" "rc:f:keys" "" 0 0]⟩ :=
  ⟨rfl, rfl, rfl⟩

/-- C1 (amended): after a miss computes and stores r, a second fetch returns a
value equal to r without re-invoking the computation, PROVIDED additionally
that the serialized form of r is nonempty (otherwise the stored value reads
back falsy and is recomputed) and that the write itself did not already evict
the fresh key. -/
theorem claim_C1 (e : Entry) (st : Store)
    (fn : List PyVal → List (String × PyVal) → PyVal)
    (args : List PyVal) (kwargs : List (String × PyVal))
    (hoff : e.offline = false)
    (hmiss : falsy (st.getStr (fetchKey e args kwargs)) = true)
    (hinv : e.deserializer (e.serializer (fn args kwargs)) = fn args kwargs)
    (hne : e.serializer (fn args kwargs) ≠ "")
    (hroom : e.limit = 0 ∨ zcount (st.getZ e.keys_key) < e.limit) :
    fetch e st fn args kwargs true true =
      .ok ⟨fn args kwargs, e,
        cacheScript st (fetchKey e args kwargs) e.keys_key
          (e.serializer (fn args kwargs)) e.ttl e.limit, 1,
        [.opGet (fetchKey e args kwargs),
          .opScript (fetchKey e args kwargs) e.keys_key
            (e.serializer (fn args kwargs)) e.ttl e.limit]⟩
    ∧ fetch e
        (cacheScript st (fetchKey e args kwargs) e.keys_key
          (e.serializer (fn args kwargs)) e.ttl e.limit)
        fn args kwargs true true =
      .ok ⟨fn args kwargs, e,
        cacheScript st (fetchKey e args kwargs) e.keys_key
          (e.serializer (fn args kwargs)) e.ttl e.limit, 0,
        [.opGet (fetchKey e args kwargs)]⟩ := by
  refine ⟨fetch_miss e st fn args kwargs hoff hmiss, ?_⟩
  have hget : (cacheScript st (fetchKey e args kwargs) e.keys_key
      (e.serializer (fn args kwargs)) e.ttl e.limit).getStr
        (fetchKey e args kwargs) = some (e.serializer (fn args kwargs)) :=
    cacheScript_getStr_no_evict st (fetchKey e args kwargs) e.keys_key
      (e.serializer (fn args kwargs)) e.ttl e.limit hroom
  have hm2 : falsy ((cacheScript st (fetchKey e args kwargs) e.keys_key
      (e.serializer (fn args kwargs)) e.ttl e.limit).getStr
        (fetchKey e args kwargs)) = false := by
    rw [hget]
    simp [falsy, hne]
  have h2 := fetch_hit e
    (cacheScript st (fetchKey e args kwargs) e.keys_key
      (e.serializer (fn args kwargs)) e.ttl e.limit)
    fn args kwargs true hoff hm2
  rw [hget] at h2
  simpa [hinv] using h2

/-- C1 witness: with a numeric serializer the first fetch caches pint 7 and
the second fetch returns it from the store without recomputing. -/
theorem claim_C1_witness :
    (eN.offline = false
      ∧ falsy (st0.getStr (fetchKey eN [] [])) = true
      ∧ eN.deserializer (eN.serializer (fn0 [] [])) = fn0 [] []
      ∧ eN.serializer (fn0 [] []) ≠ ""
      ∧ eN.limit = 0)
    ∧ fetch eN st0 fn0 [] [] true true =
        .ok ⟨.pint 7, eN, stHit, 1,
          [.opGet "rc:g:x", .opScript "rc:g:x" "rc:g:keys" "7" 0 0]⟩
    ∧ fetch eN stHit fn0 [] [] true true =
        .ok ⟨.pint 7, eN, stHit, 0, [.opGet "rc:g:x"]⟩ := by
  have h := claim_C1 eN st0 fn0 [] [] rfl rfl rfl (by decide) (Or.inl rfl)
  exact ⟨⟨rfl, rfl, rfl, by decide, rfl⟩, h.1, h.2⟩

/-- C9: a present but empty stored value is handled exactly like a miss: the
underlying function runs again, its result is re-serialized and re-written
through the script, the deserializer is never consulted; and when the
serialized form is empty again, the following fetch recomputes as well. -/
theorem claim_C9 (e : Entry) (st : Store)
    (fn : List PyVal → List (String × PyVal) → PyVal)
    (args : List PyVal) (kwargs : List (String × PyVal))
    (hoff : e.offline = false)
    (hempty : st.getStr (fetchKey e args kwargs) = some "") :
    fetch e st fn args kwargs true true =
      .ok ⟨fn args kwargs, e,
        cacheScript st (fetchKey e args kwargs) e.keys_key
          (e.serializer (fn args kwargs)) e.ttl e.limit, 1,
        [.opGet (fetchKey e args kwargs),
          .opScript (fetchKey e args kwargs) e.keys_key
            (e.serializer (fn args kwargs)) e.ttl e.limit]⟩
    ∧ (e.serializer (fn args kwargs) = "" →
        ∀ out2, fetch e
            (cacheScript st (fetchKey e args kwargs) e.keys_key
              (e.serializer (fn args kwargs)) e.ttl e.limit)
            fn args kwargs true true = .ok out2 →
          out2.fnCalls = 1) := by
  have hm : falsy (st.getStr (fetchKey e args kwargs)) = true := by
    rw [hempty]; rfl
  refine ⟨fetch_miss e st fn args kwargs hoff hm, ?_⟩
  intro hser out2 hout2
  rw [hser] at hout2
  have hm2 : falsy ((cacheScript st (fetchKey e args kwargs) e.keys_key ""
      e.ttl e.limit).getStr (fetchKey e args kwargs)) = true :=
    falsy_cacheScript_empty st (fetchKey e args kwargs) e.keys_key e.ttl e.limit
  rw [fetch_miss e _ fn args kwargs hoff hm2] at hout2
  have h := Except.ok.inj hout2
  rw [← h]

/-- C9 witness: the entry e0 on a store holding the empty string recomputes,
re-serializes and re-writes. -/
theorem claim_C9_witness :
    (e0.offline = false ∧ stC1.getStr "rc:f:" = some "")
    ∧ fetch e0 stC1 fn0 [] [] true true =
        .ok ⟨.pint 7, e0, stC1, 1,
          [.opGet "rc:f:", .opScript "rc:f:" "rc:f:keys" "" 0 0]⟩ :=
  ⟨⟨rfl, rfl⟩, (claim_C9 e0 stC1 fn0 [] [] rfl rfl).1⟩

/-! ### Characterizing the mget loop -/

theorem zip_map_self {α β : Type} (l : List α) (f : α → β) :
    l.zip (l.map f) = l.map (fun a => (a, f a)) := by
  induction l with
  | nil => rfl
  | cons a rest ih => simp [ih]

theorem mgetLoop_results (c : Cache) (l : List (Req × Option String)) :
    (mgetLoop c l).1 = l.map (fun pr =>
      match pr.2 with
      | none => pr.1.fn pr.1.args pr.1.kwargs
      | some s => c.deserializer s) := by
  induction l with
  | nil => rfl
  | cons pr rest ih =>
    obtain ⟨r, res⟩ := pr
    cases res <;> simp [mgetLoop, ih]

theorem mgetLoop_queued_length (c : Cache) (l : List (Req × Option String)) :
    (mgetLoop c l).2.length = l.countP (fun pr => pr.2.isNone) := by
  induction l with
  | nil => rfl
  | cons pr rest ih =>
    obtain ⟨r, res⟩ := pr
    cases res <;> simp [mgetLoop, ih, List.countP_cons]

/-- C6: batch fetch returns, in input order, the deserialized hit for every
present key and the synchronously computed value for every absent key, issues
exactly one MGET, and executes the pipeline exactly once when there is at
least one miss and not at all otherwise. -/
theorem claim_C6 (c : Cache) (st : Store) (reqs : List Req)
    (hne : reqs ≠ []) :
    ∀ out, mget c st reqs true = .ok out →
      out.results = reqs.map (fun r =>
        match st.getStr (r.entry.get_key r.args r.kwargs) with
        | none => r.fn r.args r.kwargs
        | some v => c.deserializer v)
      ∧ out.trace = .opMGet (mgetKeys reqs) ::
          (if reqs.countP (fun r =>
              (st.getStr (r.entry.get_key r.args r.kwargs)).isNone) = 0
            then []
            else [.opPipeExec (reqs.countP (fun r =>
              (st.getStr (r.entry.get_key r.args r.kwargs)).isNone))]) := by
  intro out hout
  have hzip : reqs.zip ((mgetKeys reqs).map st.getStr)
      = reqs.map (fun r => (r, st.getStr (r.entry.get_key r.args r.kwargs))) := by
    rw [mgetKeys, List.map_map]
    exact zip_map_self reqs _
  have hres : (mgetLoop c (reqs.zip ((mgetKeys reqs).map st.getStr))).1
      = reqs.map (fun r =>
        match st.getStr (r.entry.get_key r.args r.kwargs) with
        | none => r.fn r.args r.kwargs
        | some v => c.deserializer v) := by
    rw [mgetLoop_results, hzip, List.map_map]
    rfl
  have hqlen : (mgetLoop c (reqs.zip ((mgetKeys reqs).map st.getStr))).2.length
      = reqs.countP (fun r =>
          (st.getStr (r.entry.get_key r.args r.kwargs)).isNone) := by
    rw [mgetLoop_queued_length, hzip, List.countP_map]
    rfl
  simp only [mget, if_true] at hout
  split at hout
  · case _ hq =>
    have h := Except.ok.inj hout
    subst h
    have hc0 : reqs.countP (fun r =>
        (st.getStr (r.entry.get_key r.args r.kwargs)).isNone) = 0 := by
      rw [← hqlen]
      exact List.isEmpty_iff_length_eq_zero.mp hq
    exact ⟨hres, by rw [hc0]; rfl⟩
  · case _ hq =>
    have h := Except.ok.inj hout
    subst h
    have hc0 : reqs.countP (fun r =>
        (st.getStr (r.entry.get_key r.args r.kwargs)).isNone) ≠ 0 := by
      rw [← hqlen]
      intro hlen0
      exact hq (List.isEmpty_iff_length_eq_zero.mpr hlen0)
    refine ⟨hres, ?_⟩
    rw [hqlen]
    simp [hc0]

/-- C6 witness: two requests where the first is cached and the second is not:
the cached value comes back deserialized first, the computed value second,
with one MGET and one pipeline execution. -/
theorem claim_C6_witness :
    ([(⟨eN, fn0, [], []⟩ : Req), ⟨e0, fn0, [], []⟩] : List Req) ≠ []
    ∧ ([.pint 7, .pint 7] : List PyVal) =
        ([(⟨eN, fn0, [], []⟩ : Req), ⟨e0, fn0, [], []⟩] : List Req).map
          (fun r => match stHit.getStr (r.entry.get_key r.args r.kwargs) with
            | none => r.fn r.args r.kwargs
            | some v => c0.deserializer v)
    ∧ ([.opMGet ["rc:g:x", "rc:f:"], .opPipeExec 1] : List Op) =
        .opMGet (mgetKeys [(⟨eN, fn0, [], []⟩ : Req), ⟨e0, fn0, [], []⟩]) ::
          (if ([(⟨eN, fn0, [], []⟩ : Req), ⟨e0, fn0, [], []⟩] : List Req).countP
              (fun r => (stHit.getStr (r.entry.get_key r.args r.kwargs)).isNone)
              = 0
            then []
            else [.opPipeExec
              (([(⟨eN, fn0, [], []⟩ : Req), ⟨e0, fn0, [], []⟩] : List Req).countP
                (fun r =>
                  (stHit.getStr (r.entry.get_key r.args r.kwargs)).isNone))]) := by
  have h := claim_C6 c0 stHit [⟨eN, fn0, [], []⟩, ⟨e0, fn0, [], []⟩]
    (List.cons_ne_nil _ _)
    ⟨[.pint 7, .pint 7],
      ⟨[("rc:f:", ⟨"7", none⟩), ("rc:g:x", ⟨"7", none⟩)], [], 5⟩,
      [.opMGet ["rc:g:x", "rc:f:"], .opPipeExec 1]⟩ rfl
  exact ⟨List.cons_ne_nil _ _, h.1, h.2⟩

/-- C7 counterexample: an ismethod entry whose serializer distinguishes the
argument count: the wrapped call would use the key derived from the argument
tail, but batch fetch and invalidate both derive the key from the FULL
argument list, yielding a different key. -/
theorem claim_C7_counterexample :
    eM.ismethod = true
    ∧ mgetKeys [⟨eM, fn0, [.pint 1, .pint 2], []⟩] = ["rc:m:two"]
    ∧ Except.map Prod.snd (invalidate eM st0 [.pint 1, .pint 2] [] true) =
        .ok [.opDelete ["rc:m:two"], .opZRem "rc:m:keys" "rc:m:two"]
    ∧ fetchKey eM [.pint 1, .pint 2] [] = "rc:m:one"
    ∧ eM.get_key ([PyVal.pint 1, PyVal.pint 2].tail) [] = "rc:m:one"
    ∧ ("rc:m:two" : String) ≠ "rc:m:one" :=
  ⟨rfl, rfl, rfl, rfl, rfl, by decide⟩

/-- C7 (amended): with ismethod = true only the wrapped-call path drops the
first positional argument when deriving the key; batch fetch and invalidate
derive their keys from the full argument list. -/
theorem claim_C7 (e : Entry) (args : List PyVal)
    (kwargs : List (String × PyVal)) (st : Store)
    (fn : List PyVal → List (String × PyVal) → PyVal) (wc : Bool)
    (reqs : List Req)
    (hm : e.ismethod = true) (hoff : e.offline = false) :
    (∀ out, fetch e st fn args kwargs true wc = .ok out →
        out.trace.head? = some (.opGet (e.get_key args.tail kwargs)))
    ∧ mgetKeys reqs = reqs.map (fun r => r.entry.get_key r.args r.kwargs)
    ∧ Except.map Prod.snd (invalidate e st args kwargs true) =
        .ok [.opDelete [e.get_key args kwargs],
          .opZRem e.keys_key (e.get_key args kwargs)] := by
  have hk : fetchKey e args kwargs = e.get_key args.tail kwargs := by
    simp [fetchKey, hm]
  refine ⟨?_, rfl, rfl⟩
  intro out hout
  by_cases hfal : falsy (st.getStr (fetchKey e args kwargs)) = true
  · cases wc with
    | false =>
      rw [fetch_miss_writefail e st fn args kwargs hoff hfal] at hout
      exact absurd hout (by simp)
    | true =>
      rw [fetch_miss e st fn args kwargs hoff hfal] at hout
      have h := Except.ok.inj hout
      subst h
      simp [hk]
  · have hfal2 : falsy (st.getStr (fetchKey e args kwargs)) = false :=
      Bool.eq_false_iff.mpr hfal
    rw [fetch_hit e st fn args kwargs wc hoff hfal2] at hout
    have h := Except.ok.inj hout
    subst h
    simp [hk]

/-- C7 witness: the concrete ismethod entry, fetched with two positional
arguments, issues its GET on the key derived from the argument tail, while
mget and invalidate on the same entry use the full-argument key. -/
theorem claim_C7_witness :
    (eM.ismethod = true ∧ eM.offline = false)
    ∧ (⟨.pint 7, eM, cacheScript st0 "rc:m:one" "rc:m:keys" "x" 0 0, 1,
          [.opGet "rc:m:one", .opScript "rc:m:one" "rc:m:keys" "x" 0 0]⟩
        : FetchResult).trace.head? =
        some (.opGet (eM.get_key ([PyVal.pint 1, PyVal.pint 2].tail) []))
    ∧ mgetKeys [⟨eM, fn0, [.pint 1, .pint 2], []⟩] =
        ([⟨eM, fn0, [.pint 1, .pint 2], []⟩] : List Req).map
          (fun r => r.entry.get_key r.args r.kwargs)
    ∧ Except.map Prod.snd (invalidate eM st0 [.pint 1, .pint 2] [] true) =
        .ok [.opDelete [eM.get_key [PyVal.pint 1, PyVal.pint 2] []],
          .opZRem eM.keys_key (eM.get_key [PyVal.pint 1, PyVal.pint 2] [])] := by
  have h := claim_C7 eM [.pint 1, .pint 2] [] st0 fn0 true
    [⟨eM, fn0, [.pint 1, .pint 2], []⟩] rfl rfl
  exact ⟨⟨rfl, rfl⟩,
    h.1 ⟨.pint 7, eM, cacheScript st0 "rc:m:one" "rc:m:keys" "x" 0 0, 1,
      [.opGet "rc:m:one", .opScript "rc:m:one" "rc:m:keys" "x" 0 0]⟩ rfl,
    h.2.1, h.2.2⟩

/-- C10: batch fetch derives keys with the serializer of each entry (get_key) but
serializes computed values with the cache-level serializer and deserializes
hits with the cache-level deserializer; the single-fetch path instead uses the
own codec of the entry for both directions. -/
theorem claim_C10 (c : Cache) (e : Entry) (st : Store)
    (fn : List PyVal → List (String × PyVal) → PyVal)
    (args : List PyVal) (kwargs : List (String × PyVal))
    (hoff : e.offline = false) (hmeth : e.ismethod = false) :
    mgetKeys [⟨e, fn, args, kwargs⟩] = [e.get_key args kwargs]
    ∧ (st.getStr (e.get_key args kwargs) = none →
        mget c st [⟨e, fn, args, kwargs⟩] true =
          .ok ⟨[fn args kwargs],
            cacheScript st (e.get_key args kwargs) e.keys_key
              (c.serializer (fn args kwargs)) e.ttl e.limit,
            [.opMGet [e.get_key args kwargs], .opPipeExec 1]⟩)
    ∧ (∀ v, st.getStr (e.get_key args kwargs) = some v →
        mget c st [⟨e, fn, args, kwargs⟩] true =
          .ok ⟨[c.deserializer v], st, [.opMGet [e.get_key args kwargs]]⟩)
    ∧ (falsy (st.getStr (e.get_key args kwargs)) = true →
        fetch e st fn args kwargs true true =
          .ok ⟨fn args kwargs, e,
            cacheScript st (e.get_key args kwargs) e.keys_key
              (e.serializer (fn args kwargs)) e.ttl e.limit, 1,
            [.opGet (e.get_key args kwargs),
              .opScript (e.get_key args kwargs) e.keys_key
                (e.serializer (fn args kwargs)) e.ttl e.limit]⟩)
    ∧ (∀ v, st.getStr (e.get_key args kwargs) = some v → v ≠ "" →
        fetch e st fn args kwargs true true =
          .ok ⟨e.deserializer v, e, st, 0, [.opGet (e.get_key args kwargs)]⟩) := by
  have hk : fetchKey e args kwargs = e.get_key args kwargs := by
    simp [fetchKey, hmeth]
  refine ⟨rfl, ?_, ?_, ?_, ?_⟩
  · intro hmiss
    simp [mget, mgetKeys, mgetLoop, runScripts, hmiss]
  · intro v hv
    simp [mget, mgetKeys, mgetLoop, hv]
  · intro hfal
    have h := fetch_miss e st fn args kwargs hoff (by rw [hk]; exact hfal)
    rw [hk] at h
    exact h
  · intro v hv hvne
    have hfal2 : falsy (st.getStr (fetchKey e args kwargs)) = false := by
      rw [hk, hv]
      simp [falsy, hvne]
    have h := fetch_hit e st fn args kwargs true hoff hfal2
    rw [hk, hv] at h
    simpa using h

/-- C10 witness: for the entry e0 (codec: empty-string serializer) under the
cache c0 (codec: numeric serializer), the batch miss writes the value 7 in
the encoding of c0 while the single-fetch miss writes the empty encoding of e0. -/
theorem claim_C10_witness :
    (e0.offline = false ∧ e0.ismethod = false)
    ∧ mget c0 st0 [⟨e0, fn0, [], []⟩] true =
        .ok ⟨[.pint 7], ⟨[("rc:f:", ⟨"7", none⟩)], [], 5⟩,
          [.opMGet ["rc:f:"], .opPipeExec 1]⟩
    ∧ fetch e0 st0 fn0 [] [] true true =
        .ok ⟨.pint 7, e0, stC1, 1,
          [.opGet "rc:f:", .opScript "rc:f:" "rc:f:keys" "" 0 0]⟩
    ∧ ("7" : String) ≠ "" := by
  have h := claim_C10 c0 e0 st0 fn0 [] [] rfl rfl
  exact ⟨⟨rfl, rfl⟩, h.2.1 rfl, h.2.2.2.1 rfl, by decide⟩

end RedisCacheModel
